import Mathlib

/-!
Verification of the simulation core of the `rust-snake-wasm` repository:
coordinate arithmetic with two bounding-resolution policies (`src/data.rs`),
the Morton-indexed spatial grid, and the generic game driver
(`src/system/traits.rs`).

Machine integers are embedded as `Nat` with explicit `% 65536` (u16) and
`% 4294967296` (u32) reductions at the points where the Rust code performs
wrapping arithmetic or truncating casts.  Release-profile semantics is used
for arithmetic (u16 addition wraps).
-/

/-- Modelled from the spec: the external `morton` crate's
`interleave_morton : (u16, u16) -> u32` is bit-interleaving of the two
16-bit components (x in the even bit positions, y in the odd ones).
`encodeN k x y` interleaves the low `k` bits of `x` and `y`. -/
def encodeN : Nat → Nat → Nat → Nat
  | 0, _, _ => 0
  | k + 1, x, y => x % 2 + 2 * (y % 2) + 4 * encodeN k (x / 2) (y / 2)

/-- Modelled from the spec: the external `morton` crate's
`deinterleave_morton : u32 -> (u16, u16)`, the inverse de-interleaving:
even bits of the index give x, odd bits give y. -/
def decodeN : Nat → Nat → Nat × Nat
  | 0, _ => (0, 0)
  | k + 1, n =>
    let p := decodeN k (n / 4)
    (n % 2 + 2 * p.1, n / 2 % 2 + 2 * p.2)

theorem decodeN_encodeN (k : Nat) : ∀ x y : Nat, x < 2 ^ k → y < 2 ^ k →
    decodeN k (encodeN k x y) = (x, y) := by
  induction k with
  | zero => intro x y hx hy; interval_cases x <;> interval_cases y <;> rfl
  | succ k ih =>
    intro x y hx hy
    have hx2 : x / 2 < 2 ^ k := by
      have := Nat.pow_succ 2 k ▸ hx; omega
    have hy2 : y / 2 < 2 ^ k := by
      have := Nat.pow_succ 2 k ▸ hy; omega
    have hdiv : (x % 2 + 2 * (y % 2) + 4 * encodeN k (x / 2) (y / 2)) / 4
        = encodeN k (x / 2) (y / 2) := by omega
    simp only [encodeN, decodeN, hdiv, ih _ _ hx2 hy2, Prod.mk.injEq]
    constructor <;> omega

theorem encodeN_lt (k : Nat) : ∀ x y : Nat, x < 2 ^ k → y < 2 ^ k →
    encodeN k x y < 4 ^ k := by
  induction k with
  | zero => intro x y hx hy; simp [encodeN]
  | succ k ih =>
    intro x y hx hy
    have hx2 : x / 2 < 2 ^ k := by
      have := Nat.pow_succ 2 k ▸ hx; omega
    have hy2 : y / 2 < 2 ^ k := by
      have := Nat.pow_succ 2 k ▸ hy; omega
    have h := ih _ _ hx2 hy2
    have h4 : 4 ^ (k + 1) = 4 * 4 ^ k := by rw [Nat.pow_succ]; ring
    simp only [encodeN]
    omega

theorem decodeN_lt (k : Nat) : ∀ n : Nat,
    (decodeN k n).1 < 2 ^ k ∧ (decodeN k n).2 < 2 ^ k := by
  induction k with
  | zero => intro n; simp [decodeN]
  | succ k ih =>
    intro n
    have h := ih (n / 4)
    have h2 : 2 ^ (k + 1) = 2 * 2 ^ k := by rw [Nat.pow_succ]; ring
    simp only [decodeN]
    constructor <;> omega

theorem encodeN_decodeN (k : Nat) : ∀ n : Nat, n < 4 ^ k →
    encodeN k (decodeN k n).1 (decodeN k n).2 = n := by
  induction k with
  | zero => intro n hn; interval_cases n; rfl
  | succ k ih =>
    intro n hn
    have hn4 : n / 4 < 4 ^ k := by
      have h4 : 4 ^ (k + 1) = 4 * 4 ^ k := by rw [Nat.pow_succ]; ring
      omega
    have h := ih (n / 4) hn4
    simp only [decodeN, encodeN]
    have e1 : (n % 2 + 2 * (decodeN k (n / 4)).1) % 2 = n % 2 := by omega
    have e2 : (n % 2 + 2 * (decodeN k (n / 4)).1) / 2 = (decodeN k (n / 4)).1 := by
      omega
    have e3 : (n / 2 % 2 + 2 * (decodeN k (n / 4)).2) % 2 = n / 2 % 2 := by omega
    have e4 : (n / 2 % 2 + 2 * (decodeN k (n / 4)).2) / 2 = (decodeN k (n / 4)).2 := by
      omega
    rw [e1, e2, e3, e4, h]
    omega

theorem encodeN_inj (k : Nat) {x₁ y₁ x₂ y₂ : Nat}
    (hx₁ : x₁ < 2 ^ k) (hy₁ : y₁ < 2 ^ k) (hx₂ : x₂ < 2 ^ k) (hy₂ : y₂ < 2 ^ k)
    (h : encodeN k x₁ y₁ = encodeN k x₂ y₂) : x₁ = x₂ ∧ y₁ = y₂ := by
  have h₁ := decodeN_encodeN k x₁ y₁ hx₁ hy₁
  have h₂ := decodeN_encodeN k x₂ y₂ hx₂ hy₂
  rw [h] at h₁
  rw [h₁] at h₂
  exact ⟨congrArg Prod.fst h₂, congrArg Prod.snd h₂⟩

theorem encodeN_mono (k : Nat) : ∀ x₁ y₁ x₂ y₂ : Nat,
    x₁ < 2 ^ k → y₁ < 2 ^ k → x₂ < 2 ^ k → y₂ < 2 ^ k →
    x₁ ≤ x₂ → y₁ ≤ y₂ → encodeN k x₁ y₁ ≤ encodeN k x₂ y₂ := by
  induction k with
  | zero => intro _ _ _ _ _ _ _ _ _ _; simp [encodeN]
  | succ k ih =>
    intro x₁ y₁ x₂ y₂ hx₁ hy₁ hx₂ hy₂ hx hy
    have p2 : 2 ^ (k + 1) = 2 * 2 ^ k := by rw [Nat.pow_succ]; ring
    have hx₁2 : x₁ / 2 < 2 ^ k := by omega
    have hy₁2 : y₁ / 2 < 2 ^ k := by omega
    have hx₂2 : x₂ / 2 < 2 ^ k := by omega
    have hy₂2 : y₂ / 2 < 2 ^ k := by omega
    have hle := ih (x₁ / 2) (y₁ / 2) (x₂ / 2) (y₂ / 2) hx₁2 hy₁2 hx₂2 hy₂2
      (by omega) (by omega)
    simp only [encodeN]
    rcases Nat.lt_or_ge (encodeN k (x₁ / 2) (y₁ / 2)) (encodeN k (x₂ / 2) (y₂ / 2))
      with hlt | hge
    · omega
    · have heq : encodeN k (x₁ / 2) (y₁ / 2) = encodeN k (x₂ / 2) (y₂ / 2) := by
        omega
      obtain ⟨ex, ey⟩ := encodeN_inj k hx₁2 hy₁2 hx₂2 hy₂2 heq
      omega

theorem encodeN_strict_mono (k : Nat) {x₁ y₁ x₂ y₂ : Nat}
    (hx₁ : x₁ < 2 ^ k) (hy₁ : y₁ < 2 ^ k) (hx₂ : x₂ < 2 ^ k) (hy₂ : y₂ < 2 ^ k)
    (hx : x₁ ≤ x₂) (hy : y₁ ≤ y₂) (hne : x₁ ≠ x₂ ∨ y₁ ≠ y₂) :
    encodeN k x₁ y₁ < encodeN k x₂ y₂ := by
  have hle := encodeN_mono k x₁ y₁ x₂ y₂ hx₁ hy₁ hx₂ hy₂ hx hy
  rcases Nat.lt_or_ge (encodeN k x₁ y₁) (encodeN k x₂ y₂) with h | h
  · exact h
  · have heq : encodeN k x₁ y₁ = encodeN k x₂ y₂ := by omega
    obtain ⟨ex, ey⟩ := encodeN_inj k hx₁ hy₁ hx₂ hy₂ heq
    tauto

/-! ## Coordinate layer (`src/data.rs`) -/

/-- `Direction` from `src/data.rs`. -/
inductive Direction where
  | north
  | south
  | east
  | west
  deriving DecidableEq

/-- `Direction::opposite` from `src/data.rs`. -/
def Direction.opposite : Direction → Direction
  | .north => .south
  | .south => .north
  | .east => .west
  | .west => .east

/-- `Block` from `src/data.rs` (the type parameter instantiated at its
default `Direction`, as the grid stores it). -/
inductive Block where
  | empty
  | snake (d : Direction)
  | food
  | outOfBound
  deriving DecidableEq

/-- `Coordinate` from `src/data.rs`: a pair of `SmallNat = u16` components,
embedded as `Nat` together with the validity predicate `Coordinate.Valid`
expressing the u16 range. -/
structure Coordinate where
  x : Nat
  y : Nat
  deriving DecidableEq

/-- The u16 range invariant carried by the Rust type `SmallNat`. -/
def Coordinate.Valid (c : Coordinate) : Prop := c.x < 65536 ∧ c.y < 65536

/-- `Coordinate::encode_usize`: `interleave_morton(x, y) as usize`. -/
def Coordinate.encode_usize (c : Coordinate) : Nat := encodeN 16 c.x c.y

/-- `Coordinate::decode_usize`: `deinterleave_morton(n as u32)`; the cast
truncates the index to 32 bits. -/
def Coordinate.decode_usize (n : Nat) : Coordinate :=
  ⟨(decodeN 16 (n % 4294967296)).1, (decodeN 16 (n % 4294967296)).2⟩

/-- The `PartialOrd for Coordinate` implementation from `src/data.rs`
(`partial_cmp`): componentwise comparison, defined only when the two axes
agree. -/
def Coordinate.cmpPartial (a b : Coordinate) : Option Ordering :=
  match compare a.x b.x, compare a.y b.y with
  | Ordering.eq, o => some o
  | o, Ordering.eq => some o
  | ox, oy => if ox = oy then some ox else none

/-- `UncheckedCoordinate` from `src/data.rs`: a tentative coordinate. -/
structure UncheckedCoordinate where
  inner : Coordinate
  deriving DecidableEq

/-- `Coordinate::move_towards`: one-step offset with u16 wrapping
arithmetic (`wrapping_sub(1)` is `+ 65535` mod `2^16`). -/
def Coordinate.move_towards (c : Coordinate) : Direction → UncheckedCoordinate
  | .north => ⟨⟨c.x, (c.y + 65535) % 65536⟩⟩
  | .south => ⟨⟨c.x, (c.y + 1) % 65536⟩⟩
  | .east => ⟨⟨(c.x + 1) % 65536, c.y⟩⟩
  | .west => ⟨⟨(c.x + 65535) % 65536, c.y⟩⟩

/-- `UncheckedCoordinate::bound_inside` (the clip policy). -/
def UncheckedCoordinate.bound_inside (u : UncheckedCoordinate)
    (bound_width bound_height : Nat) : Option Coordinate :=
  if u.inner.x < bound_width ∧ u.inner.y < bound_height then
    some u.inner
  else
    none

/-- `UncheckedCoordinate::wrap_inside` (the wrap policy):
`x.wrapping_add(bound_width) % bound_width` on u16, i.e. the sum is first
reduced mod `2^16` and only then mod the bound. -/
def UncheckedCoordinate.wrap_inside (u : UncheckedCoordinate)
    (bound_width bound_height : Nat) : Coordinate :=
  ⟨(u.inner.x + bound_width) % 65536 % bound_width,
   (u.inner.y + bound_height) % 65536 % bound_height⟩

theorem two_pow_16 : (65536 : Nat) = 2 ^ 16 := by norm_num

theorem four_pow_16 : (4294967296 : Nat) = 4 ^ 16 := by norm_num

theorem encode_usize_lt (c : Coordinate) (hc : c.Valid) :
    c.encode_usize < 4294967296 := by
  rw [four_pow_16]
  exact encodeN_lt 16 c.x c.y (two_pow_16 ▸ hc.1) (two_pow_16 ▸ hc.2)

theorem decode_encode (c : Coordinate) (hc : c.Valid) :
    Coordinate.decode_usize c.encode_usize = c := by
  obtain ⟨hx, hy⟩ := hc
  have hlt : c.encode_usize < 4294967296 := encode_usize_lt c ⟨hx, hy⟩
  unfold Coordinate.decode_usize
  rw [Nat.mod_eq_of_lt hlt]
  have h := decodeN_encodeN 16 c.x c.y (two_pow_16 ▸ hx) (two_pow_16 ▸ hy)
  unfold Coordinate.encode_usize
  rw [h]

theorem encode_lt_of_lt {a b : Coordinate} (ha : a.Valid) (hb : b.Valid)
    (hx : a.x ≤ b.x) (hy : a.y ≤ b.y) (hne : a ≠ b) :
    a.encode_usize < b.encode_usize := by
  refine encodeN_strict_mono 16 (two_pow_16 ▸ ha.1) (two_pow_16 ▸ ha.2)
    (two_pow_16 ▸ hb.1) (two_pow_16 ▸ hb.2) hx hy ?_
  by_contra hcon
  push_neg at hcon
  exact hne (by cases a; cases b; simp_all)

theorem encode_le_of_le {a b : Coordinate} (ha : a.Valid) (hb : b.Valid)
    (hx : a.x ≤ b.x) (hy : a.y ≤ b.y) :
    a.encode_usize ≤ b.encode_usize :=
  encodeN_mono 16 a.x a.y b.x b.y (two_pow_16 ▸ ha.1) (two_pow_16 ▸ ha.2)
    (two_pow_16 ▸ hb.1) (two_pow_16 ▸ hb.2) hx hy

/-- C1 (counterexample): the claim fails as stated.  At the tentative
coordinate (65000, 0) with bounds 65001 × 1 the clip policy succeeds with
(65000, 0), but the wrap policy's u16 `wrapping_add` overflows
(65000 + 65001 ≡ 64465 mod 2^16) and returns (64465, 0) instead. -/
theorem clip_wrap_disagree_at_overflow :
    UncheckedCoordinate.bound_inside ⟨⟨65000, 0⟩⟩ 65001 1 = some ⟨65000, 0⟩ ∧
    UncheckedCoordinate.wrap_inside ⟨⟨65000, 0⟩⟩ 65001 1 = ⟨64465, 0⟩ ∧
    (64465 : Nat) ≠ 65000 := by
  refine ⟨by decide, by decide, by decide⟩

/-- C1 (amended): if the clip policy succeeds and neither component's
u16 addition of the bound overflows (`x + width < 2^16` and
`y + height < 2^16`), then the wrap policy returns the same coordinate. -/
theorem clip_succ_imp_wrap_eq (u : UncheckedCoordinate) (w h : Nat)
    (hxw : u.inner.x + w < 65536) (hyh : u.inner.y + h < 65536)
    (c : Coordinate) (hb : u.bound_inside w h = some c) :
    u.wrap_inside w h = c := by
  unfold UncheckedCoordinate.bound_inside at hb
  split at hb
  · rename_i hin
    obtain ⟨hx, hy⟩ := hin
    obtain rfl : u.inner = c := by injection hb
    unfold UncheckedCoordinate.wrap_inside
    rw [Nat.mod_eq_of_lt hxw, Nat.mod_eq_of_lt hyh,
      Nat.add_mod_right, Nat.add_mod_right,
      Nat.mod_eq_of_lt hx, Nat.mod_eq_of_lt hy]
  · exact absurd hb (by simp)

theorem clip_succ_imp_wrap_eq_witness :
    (3 + 10 < 65536) ∧ (1 + 2 < 65536) ∧
    UncheckedCoordinate.bound_inside ⟨⟨3, 1⟩⟩ 10 2 = some ⟨3, 1⟩ ∧
    UncheckedCoordinate.wrap_inside ⟨⟨3, 1⟩⟩ 10 2 = ⟨3, 1⟩ :=
  ⟨by decide, by decide, by decide,
    clip_succ_imp_wrap_eq ⟨⟨3, 1⟩⟩ 10 2 (by decide) (by decide) ⟨3, 1⟩ (by decide)⟩

/-- C2 (counterexample): the wrap policy does not return
`((x + w) mod w, (y + h) mod h)` in general.  At (65535, 0) with bounds
10 × 1 the code's u16 `wrapping_add` gives x-component
((65535 + 10) mod 2^16) mod 10 = 9, while the claimed formula gives
(65535 + 10) mod 10 = 5. -/
theorem wrap_formula_fails_at_overflow :
    UncheckedCoordinate.wrap_inside ⟨⟨65535, 0⟩⟩ 10 1 = ⟨9, 0⟩ ∧
    ((65535 + 10) % 10 : Nat) = 5 ∧
    UncheckedCoordinate.wrap_inside ⟨⟨65535, 0⟩⟩ 10 1 ≠
      ⟨(65535 + 10) % 10, (0 + 1) % 1⟩ := by
  refine ⟨by decide, by decide, by decide⟩

/-- C2 (amended): for positive bounds the wrap policy returns
`(((x + w) mod 2^16) mod w, ((y + h) mod 2^16) mod h)` — the u16-wrapping
sum reduced modulo the bound — which always lies inside
[0, w) × [0, h); it never fails. -/
theorem wrap_inside_spec (u : UncheckedCoordinate) (w h : Nat)
    (hw : 0 < w) (hh : 0 < h) :
    u.wrap_inside w h = ⟨(u.inner.x + w) % 65536 % w, (u.inner.y + h) % 65536 % h⟩ ∧
    (u.wrap_inside w h).x < w ∧ (u.wrap_inside w h).y < h :=
  ⟨rfl, Nat.mod_lt _ hw, Nat.mod_lt _ hh⟩

theorem wrap_inside_spec_witness :
    (0 < 10) ∧ (0 < 1) ∧
    UncheckedCoordinate.wrap_inside ⟨⟨65535, 7⟩⟩ 10 1 =
      ⟨(65535 + 10) % 65536 % 10, (7 + 1) % 65536 % 1⟩ ∧
    (UncheckedCoordinate.wrap_inside ⟨⟨65535, 7⟩⟩ 10 1).x < 10 ∧
    (UncheckedCoordinate.wrap_inside ⟨⟨65535, 7⟩⟩ 10 1).y < 1 :=
  ⟨by decide, by decide, wrap_inside_spec ⟨⟨65535, 7⟩⟩ 10 1 (by decide) (by decide)⟩

/-- C3: the Morton coordinate-to-index encoding is a bijection on the
domain of representable (u16 × u16) coordinates: decoding an encoded
coordinate gives it back, and encoding the decoding of any index in the
image of the encoding gives the index back. -/
theorem encode_decode_bijection :
    (∀ c : Coordinate, c.Valid → Coordinate.decode_usize c.encode_usize = c) ∧
    (∀ n : Nat, (∃ c : Coordinate, c.Valid ∧ c.encode_usize = n) →
      (Coordinate.decode_usize n).encode_usize = n) := by
  refine ⟨decode_encode, ?_⟩
  rintro n ⟨c, hc, rfl⟩
  rw [decode_encode c hc]

theorem encode_decode_bijection_witness :
    (⟨3, 5⟩ : Coordinate).Valid ∧
    Coordinate.decode_usize (Coordinate.encode_usize ⟨3, 5⟩) = ⟨3, 5⟩ ∧
    (∃ c : Coordinate, c.Valid ∧ c.encode_usize = 39) ∧
    (Coordinate.decode_usize 39).encode_usize = 39 :=
  ⟨⟨by decide, by decide⟩, encode_decode_bijection.1 ⟨3, 5⟩ ⟨by decide, by decide⟩,
    ⟨⟨3, 5⟩, ⟨by decide, by decide⟩, by decide⟩,
    encode_decode_bijection.2 39 ⟨⟨3, 5⟩, ⟨by decide, by decide⟩, by decide⟩⟩

theorem encode_eq_of_eq {a b : Coordinate} (hx : a.x = b.x) (hy : a.y = b.y) :
    a.encode_usize = b.encode_usize := by
  unfold Coordinate.encode_usize
  rw [hx, hy]

/-- C4: whenever `partial_cmp` on coordinates is defined, it agrees with
the total-order comparison of the Morton-encoded indices. -/
theorem cmpPartial_eq_compare_encode (a b : Coordinate)
    (ha : a.Valid) (hb : b.Valid) (o : Ordering)
    (h : Coordinate.cmpPartial a b = some o) :
    compare a.encode_usize b.encode_usize = o := by
  have hlt : a.x ≤ b.x → a.y ≤ b.y → a ≠ b →
      compare a.encode_usize b.encode_usize = Ordering.lt := fun hx hy hne =>
    Nat.compare_eq_lt.mpr (encode_lt_of_lt ha hb hx hy hne)
  have hgt : b.x ≤ a.x → b.y ≤ a.y → b ≠ a →
      compare a.encode_usize b.encode_usize = Ordering.gt := fun hx hy hne =>
    Nat.compare_eq_gt.mpr (encode_lt_of_lt hb ha hx hy hne)
  have hne_of_x : a.x ≠ b.x → a ≠ b := fun hne he => hne (he ▸ rfl)
  have hne_of_y : a.y ≠ b.y → a ≠ b := fun hne he => hne (he ▸ rfl)
  unfold Coordinate.cmpPartial at h
  rcases hcx : compare a.x b.x <;> rcases hcy : compare a.y b.y <;>
    rw [hcx, hcy] at h <;> simp at h
  · -- x lt, y lt
    rw [← h]
    exact hlt (Nat.le_of_lt (Nat.compare_eq_lt.mp hcx))
      (Nat.le_of_lt (Nat.compare_eq_lt.mp hcy))
      (hne_of_x (Nat.ne_of_lt (Nat.compare_eq_lt.mp hcx)))
  · -- x lt, y eq
    rw [← h]
    exact hlt (Nat.le_of_lt (Nat.compare_eq_lt.mp hcx))
      (Nat.le_of_eq (Nat.compare_eq_eq.mp hcy))
      (hne_of_x (Nat.ne_of_lt (Nat.compare_eq_lt.mp hcx)))
  · -- x eq, y lt
    rw [← h]
    exact hlt (Nat.le_of_eq (Nat.compare_eq_eq.mp hcx))
      (Nat.le_of_lt (Nat.compare_eq_lt.mp hcy))
      (hne_of_y (Nat.ne_of_lt (Nat.compare_eq_lt.mp hcy)))
  · -- x eq, y eq
    rw [← h]
    have he := encode_eq_of_eq (Nat.compare_eq_eq.mp hcx) (Nat.compare_eq_eq.mp hcy)
    rw [he, Nat.compare_eq_eq]
  · -- x eq, y gt
    rw [← h]
    exact hgt (Nat.le_of_eq (Nat.compare_eq_eq.mp hcx).symm)
      (Nat.le_of_lt (Nat.compare_eq_gt.mp hcy))
      (hne_of_y (Nat.ne_of_gt (Nat.compare_eq_gt.mp hcy))).symm
  · -- x gt, y eq
    rw [← h]
    exact hgt (Nat.le_of_lt (Nat.compare_eq_gt.mp hcx))
      (Nat.le_of_eq (Nat.compare_eq_eq.mp hcy).symm)
      (hne_of_x (Nat.ne_of_gt (Nat.compare_eq_gt.mp hcx))).symm
  · -- x gt, y gt
    rw [← h]
    exact hgt (Nat.le_of_lt (Nat.compare_eq_gt.mp hcx))
      (Nat.le_of_lt (Nat.compare_eq_gt.mp hcy))
      (hne_of_x (Nat.ne_of_gt (Nat.compare_eq_gt.mp hcx))).symm

theorem cmpPartial_eq_compare_encode_witness :
    (⟨2, 3⟩ : Coordinate).Valid ∧ (⟨2, 5⟩ : Coordinate).Valid ∧
    Coordinate.cmpPartial ⟨2, 3⟩ ⟨2, 5⟩ = some Ordering.lt ∧
    compare (Coordinate.encode_usize ⟨2, 3⟩) (Coordinate.encode_usize ⟨2, 5⟩) =
      Ordering.lt :=
  ⟨⟨by decide, by decide⟩, ⟨by decide, by decide⟩, by decide,
    cmpPartial_eq_compare_encode ⟨2, 3⟩ ⟨2, 5⟩ ⟨by decide, by decide⟩
      ⟨by decide, by decide⟩ Ordering.lt (by decide)⟩

/-! ## Spatial grid (`src/data.rs`) -/

/-- `Grid` from `src/data.rs`: dense Morton-indexed storage plus the
logical width and height (u16 in Rust). -/
structure Grid where
  blocks : List Block
  width : Nat
  height : Nat

/-- The coordinate enumeration `iproduct!(0..width, 0..height)` used by
`Grid::empty` and `Grid::iter_coordinates` (x outer, y inner). -/
def coordList (w h : Nat) : List (Nat × Nat) :=
  (List.range w).flatMap fun x => (List.range h).map fun y => (x, y)

/-- `Grid::empty`: clamp width and height up to 1, allocate
`encode(width-1, height-1) + 1` slots of `OutOfBound`, then set every
in-rectangle slot to `Empty`. -/
def Grid.empty (w h : Nat) : Grid :=
  let w' := Nat.max 1 w
  let h' := Nat.max 1 h
  let size := Coordinate.encode_usize ⟨w' - 1, h' - 1⟩ + 1
  let blocks := (coordList w' h').foldl
    (fun bs p => bs.set (Coordinate.encode_usize ⟨p.1, p.2⟩) Block.empty)
    (List.replicate size Block.outOfBound)
  ⟨blocks, w', h'⟩

/-- `impl Index<Coordinate> for Grid`: an out-of-rectangle read returns the
`OutOfBound` sentinel; an in-rectangle read indexes the dense vector
(`none` models the panic of a vector access past the end, which cannot
happen on grids built by the constructors). -/
def Grid.get (g : Grid) (c : Coordinate) : Option Block :=
  if c.x < g.width ∧ c.y < g.height then
    g.blocks[c.encode_usize]?
  else
    some Block.outOfBound

/-- `impl IndexMut<Coordinate> for Grid`: a write through an
out-of-rectangle coordinate panics (`none`); an in-rectangle write stores
the block at the encoded index (again `none` if the vector is too short). -/
def Grid.setBlock (g : Grid) (c : Coordinate) (b : Block) : Option Grid :=
  if c.x < g.width ∧ c.y < g.height then
    if c.encode_usize < g.blocks.length then
      some ⟨g.blocks.set c.encode_usize b, g.width, g.height⟩
    else
      none
  else
    none

/-- `Grid::clear`: write `Empty` through every in-rectangle coordinate of
`iter_coordinates`, in place. -/
def Grid.clear (g : Grid) : Grid :=
  ⟨(coordList g.width g.height).foldl
    (fun bs p => bs.set (Coordinate.encode_usize ⟨p.1, p.2⟩) Block.empty)
    g.blocks, g.width, g.height⟩

/-- The growth step of the `FromIterator` impl: push `Empty` until the
vector covers index `idx` (`for _ in blocks.len()..=index`). -/
def growTo (bs : List Block) (idx : Nat) : List Block :=
  bs ++ List.replicate (idx + 1 - bs.length) Block.empty

/-- Accumulator state of `FromIterator<(Coordinate, Block)> for Grid`:
the growing vector and the running maxima of x and y. -/
structure BuildSt where
  blocks : List Block
  xMax : Nat
  yMax : Nat

/-- One iteration of the `FromIterator` loop: update the running maxima,
grow the vector to cover the encoded running-maximum coordinate, then
store the supplied block at the supplied coordinate's encoded index. -/
def buildStep (st : BuildSt) (p : Coordinate × Block) : BuildSt :=
  let xM := Nat.max st.xMax p.1.x
  let yM := Nat.max st.yMax p.1.y
  let idx := Coordinate.encode_usize ⟨xM, yM⟩
  let grown := growTo st.blocks idx
  ⟨grown.set p.1.encode_usize p.2, xM, yM⟩

/-- `impl FromIterator<(Coordinate, Block)> for Grid`: fold the entries
through `buildStep` starting from a single `Empty` slot, then mark
`OutOfBound` every slot whose decoded coordinate exceeds the final maxima
on either axis, and infer width and height as the maxima plus one
(u16 addition, which wraps in the release profile). -/
def gridFromList (l : List (Coordinate × Block)) : Grid :=
  let st := l.foldl buildStep ⟨[Block.empty], 0, 0⟩
  let marked := st.blocks.mapIdx fun i b =>
    let c := Coordinate.decode_usize i
    if st.xMax < c.x ∨ st.yMax < c.y then Block.outOfBound else b
  ⟨marked, (st.xMax + 1) % 65536, (st.yMax + 1) % 65536⟩

/-- The Rust-side count `blocks.iter().filter(|b| *b != OutOfBound).count()`. -/
def countNonOOB (bs : List Block) : Nat :=
  bs.countP fun b => b ≠ Block.outOfBound

theorem decode_usize_valid (n : Nat) : (Coordinate.decode_usize n).Valid :=
  ⟨two_pow_16 ▸ (decodeN_lt 16 (n % 4294967296)).1,
   two_pow_16 ▸ (decodeN_lt 16 (n % 4294967296)).2⟩

theorem encode_decode_of_lt (n : Nat) (hn : n < 4294967296) :
    (Coordinate.decode_usize n).encode_usize = n := by
  unfold Coordinate.decode_usize Coordinate.encode_usize
  simp only [Nat.mod_eq_of_lt hn]
  exact encodeN_decodeN 16 n (four_pow_16 ▸ hn)

theorem mem_coordList {w h x y : Nat} :
    (x, y) ∈ coordList w h ↔ x < w ∧ y < h := by
  simp [coordList]

theorem foldl_set_length (f : Nat × Nat → Nat) (v : Block) :
    ∀ (L : List (Nat × Nat)) (bs : List Block),
      (L.foldl (fun acc p => acc.set (f p) v) bs).length = bs.length := by
  intro L
  induction L with
  | nil => intro bs; rfl
  | cons p L ih =>
    intro bs
    simp only [List.foldl_cons]
    rw [ih, List.length_set]

theorem foldl_set_getD (f : Nat × Nat → Nat) (v : Block) :
    ∀ (L : List (Nat × Nat)) (bs : List Block) (n : Nat) (d : Block),
      (∀ p ∈ L, f p < bs.length) →
      (L.foldl (fun acc p => acc.set (f p) v) bs).getD n d =
        if ∃ p ∈ L, f p = n then v else bs.getD n d := by
  intro L
  induction L with
  | nil => intro bs n d _; simp
  | cons p L ih =>
    intro bs n d h
    have hlen : ∀ q ∈ L, f q < (bs.set (f p) v).length := by
      intro q hq
      rw [List.length_set]
      exact h q (List.mem_cons_of_mem _ hq)
    simp only [List.foldl_cons]
    rw [ih (bs.set (f p) v) n d hlen]
    by_cases hex : ∃ q ∈ L, f q = n
    · have hex' : ∃ q ∈ p :: L, f q = n := by
        obtain ⟨q, hq, hfq⟩ := hex
        exact ⟨q, List.mem_cons_of_mem _ hq, hfq⟩
      rw [if_pos hex, if_pos hex']
    · rw [if_neg hex]
      by_cases hn : f p = n
      · have hex' : ∃ q ∈ p :: L, f q = n := ⟨p, List.mem_cons_self p L, hn⟩
        rw [if_pos hex']
        subst hn
        have hp := h p (List.mem_cons_self p L)
        rw [List.getD_eq_getElem?_getD, List.getElem?_set_self hp]
        rfl
      · have hex' : ¬∃ q ∈ p :: L, f q = n := by
          rintro ⟨q, hq, hfq⟩
          rcases List.mem_cons.mp hq with rfl | hq'
          · exact hn hfq
          · exact hex ⟨q, hq', hfq⟩
        rw [if_neg hex', List.getD_eq_getElem?_getD, List.getD_eq_getElem?_getD,
          List.getElem?_set_ne hn]

theorem coordList_encode_le {w h : Nat} (hw : 0 < w) (hh : 0 < h)
    (hw16 : w ≤ 65536) (hh16 : h ≤ 65536) :
    ∀ p ∈ coordList w h,
      Coordinate.encode_usize ⟨p.1, p.2⟩ ≤ Coordinate.encode_usize ⟨w - 1, h - 1⟩ := by
  rintro ⟨x, y⟩ hp
  obtain ⟨hx, hy⟩ := mem_coordList.mp hp
  exact encode_le_of_le (a := ⟨x, y⟩) (b := ⟨w - 1, h - 1⟩)
    ⟨(by omega : x < 65536), (by omega : y < 65536)⟩
    ⟨(by omega : w - 1 < 65536), (by omega : h - 1 < 65536)⟩
    (by omega : x ≤ w - 1) (by omega : y ≤ h - 1)

/-- C6: `Grid::empty(width, height)` clamps both dimensions up to a
minimum of 1; every storage slot whose decoded coordinate lies inside
[0, width) × [0, height) holds `Empty` and every slot whose decoded
coordinate lies outside holds `OutOfBound`. -/
theorem grid_empty_spec (w h : Nat) (hw : w < 65536) (hh : h < 65536) :
    (Grid.empty w h).width = Nat.max 1 w ∧
    (Grid.empty w h).height = Nat.max 1 h ∧
    ∀ n, n < (Grid.empty w h).blocks.length →
      (((Coordinate.decode_usize n).x < (Grid.empty w h).width ∧
        (Coordinate.decode_usize n).y < (Grid.empty w h).height) →
        (Grid.empty w h).blocks.getD n Block.outOfBound = Block.empty) ∧
      (¬((Coordinate.decode_usize n).x < (Grid.empty w h).width ∧
         (Coordinate.decode_usize n).y < (Grid.empty w h).height) →
        (Grid.empty w h).blocks.getD n Block.outOfBound = Block.outOfBound) := by
  have hw1 : Nat.max 1 w < 65536 := Nat.max_lt.mpr ⟨by omega, hw⟩
  have hh1 : Nat.max 1 h < 65536 := Nat.max_lt.mpr ⟨by omega, hh⟩
  have hw0 : 0 < Nat.max 1 w := Nat.lt_of_lt_of_le Nat.one_pos (Nat.le_max_left 1 w)
  have hh0 : 0 < Nat.max 1 h := Nat.lt_of_lt_of_le Nat.one_pos (Nat.le_max_left 1 h)
  have hmaxvalid : (⟨Nat.max 1 w - 1, Nat.max 1 h - 1⟩ : Coordinate).Valid :=
    ⟨(by omega : Nat.max 1 w - 1 < 65536), (by omega : Nat.max 1 h - 1 < 65536)⟩
  have hsize : Coordinate.encode_usize ⟨Nat.max 1 w - 1, Nat.max 1 h - 1⟩ + 1
      ≤ 4294967296 := encode_usize_lt _ hmaxvalid
  have hblocks : (Grid.empty w h).blocks =
      (coordList (Nat.max 1 w) (Nat.max 1 h)).foldl
        (fun bs p => bs.set (Coordinate.encode_usize ⟨p.1, p.2⟩) Block.empty)
        (List.replicate
          (Coordinate.encode_usize ⟨Nat.max 1 w - 1, Nat.max 1 h - 1⟩ + 1)
          Block.outOfBound) := rfl
  have hlen : (Grid.empty w h).blocks.length =
      Coordinate.encode_usize ⟨Nat.max 1 w - 1, Nat.max 1 h - 1⟩ + 1 := by
    rw [hblocks, foldl_set_length, List.length_replicate]
  have hinb : ∀ p ∈ coordList (Nat.max 1 w) (Nat.max 1 h),
      Coordinate.encode_usize ⟨p.1, p.2⟩ <
        (List.replicate
          (Coordinate.encode_usize ⟨Nat.max 1 w - 1, Nat.max 1 h - 1⟩ + 1)
          Block.outOfBound).length := by
    intro p hp
    rw [List.length_replicate]
    have := coordList_encode_le hw0 hh0 (by omega) (by omega) p hp
    omega
  refine ⟨rfl, rfl, ?_⟩
  intro n hn
  have hn32 : n < 4294967296 := by
    rw [hlen] at hn
    omega
  constructor
  · intro hin
    have hex : ∃ p ∈ coordList (Nat.max 1 w) (Nat.max 1 h),
        Coordinate.encode_usize ⟨p.1, p.2⟩ = n := by
      refine ⟨((Coordinate.decode_usize n).x, (Coordinate.decode_usize n).y),
        mem_coordList.mpr hin, ?_⟩
      rw [show (⟨(Coordinate.decode_usize n).x, (Coordinate.decode_usize n).y⟩ :
        Coordinate) = Coordinate.decode_usize n from rfl]
      exact encode_decode_of_lt n hn32
    rw [hblocks, foldl_set_getD _ _ _ _ _ _ hinb, if_pos hex]
  · intro hout
    have hnex : ¬∃ p ∈ coordList (Nat.max 1 w) (Nat.max 1 h),
        Coordinate.encode_usize ⟨p.1, p.2⟩ = n := by
      rintro ⟨⟨px, py⟩, hp, hfp⟩
      obtain ⟨hpx, hpy⟩ := mem_coordList.mp hp
      have hv : (⟨px, py⟩ : Coordinate).Valid :=
        ⟨(by omega : px < 65536), (by omega : py < 65536)⟩
      have hdec : Coordinate.decode_usize n = ⟨px, py⟩ := by
        rw [← hfp, decode_encode _ hv]
      rw [hdec] at hout
      exact hout ⟨hpx, hpy⟩
    rw [hblocks, foldl_set_getD _ _ _ _ _ _ hinb, if_neg hnex,
      List.getD_eq_getElem?_getD, List.getElem?_replicate]
    rw [hlen] at hn
    rw [if_pos hn]
    rfl

theorem grid_empty_spec_witness :
    (2 < 65536) ∧ (3 < 65536) ∧ (Grid.empty 2 3).width = Nat.max 1 2 ∧
    (Grid.empty 2 3).blocks.getD 0 Block.outOfBound = Block.empty :=
  ⟨by decide, by decide, (grid_empty_spec 2 3 (by decide) (by decide)).1,
    ((grid_empty_spec 2 3 (by decide) (by decide)).2.2 0 (by decide)).1
      ⟨by decide, by decide⟩⟩

/-- C7: an indexed read of a coordinate outside the logical rectangle
returns the `OutOfBound` sentinel and never fails, an indexed write
through such a coordinate panics (modelled by `none`), and an
in-rectangle read returns the stored block at the coordinate's encoded
index. -/
theorem grid_index_policy (g : Grid) (c : Coordinate) (b : Block) :
    ((g.width ≤ c.x ∨ g.height ≤ c.y) →
      g.get c = some Block.outOfBound ∧ g.setBlock c b = none) ∧
    (c.x < g.width → c.y < g.height →
      g.get c = g.blocks[c.encode_usize]?) := by
  constructor
  · intro hout
    have hcond : ¬(c.x < g.width ∧ c.y < g.height) := by omega
    unfold Grid.get Grid.setBlock
    rw [if_neg hcond, if_neg hcond]
    exact ⟨rfl, rfl⟩
  · intro hx hy
    unfold Grid.get
    rw [if_pos ⟨hx, hy⟩]

theorem grid_index_policy_witness :
    ((Grid.empty 2 2).width ≤ 5 ∨ (Grid.empty 2 2).height ≤ 0) ∧
    (Grid.empty 2 2).get ⟨5, 0⟩ = some Block.outOfBound ∧
    (Grid.empty 2 2).setBlock ⟨5, 0⟩ Block.food = none ∧
    (1 < (Grid.empty 2 2).width) ∧ (1 < (Grid.empty 2 2).height) ∧
    (Grid.empty 2 2).get ⟨1, 1⟩ =
      (Grid.empty 2 2).blocks[(Coordinate.encode_usize ⟨1, 1⟩)]? :=
  ⟨by decide, ((grid_index_policy (Grid.empty 2 2) ⟨5, 0⟩ Block.food).1 (by decide)).1,
    ((grid_index_policy (Grid.empty 2 2) ⟨5, 0⟩ Block.food).1 (by decide)).2,
    by decide, by decide,
    (grid_index_policy (Grid.empty 2 2) ⟨1, 1⟩ Block.food).2 (by decide) (by decide)⟩

/-- C8: `Grid::clear` resets every slot whose decoded coordinate lies
inside [0, width) × [0, height) to `Empty` and changes nothing else: the
width, the height, the storage length (no reallocation) and the contents
of every out-of-rectangle slot are all preserved.  The hypotheses are the
representation invariants every reachable grid satisfies: u16 dimensions,
a storage no longer than the u32 index range, and storage covering every
in-rectangle encoded index (without which the Rust write would panic). -/
theorem grid_clear_spec (g : Grid)
    (hw : g.width < 65536) (hh : g.height < 65536)
    (hlen32 : g.blocks.length ≤ 4294967296)
    (hsz : ∀ x, x < g.width → ∀ y, y < g.height →
      Coordinate.encode_usize ⟨x, y⟩ < g.blocks.length) :
    g.clear.width = g.width ∧ g.clear.height = g.height ∧
    g.clear.blocks.length = g.blocks.length ∧
    ∀ n, n < g.blocks.length →
      (((Coordinate.decode_usize n).x < g.width ∧
        (Coordinate.decode_usize n).y < g.height) →
        g.clear.blocks.getD n Block.outOfBound = Block.empty) ∧
      (¬((Coordinate.decode_usize n).x < g.width ∧
         (Coordinate.decode_usize n).y < g.height) →
        g.clear.blocks.getD n Block.outOfBound = g.blocks.getD n Block.outOfBound) := by
  have hinb : ∀ p ∈ coordList g.width g.height,
      Coordinate.encode_usize ⟨p.1, p.2⟩ < g.blocks.length := by
    rintro ⟨px, py⟩ hp
    obtain ⟨hpx, hpy⟩ := mem_coordList.mp hp
    exact hsz px hpx py hpy
  have hblocks : g.clear.blocks =
      (coordList g.width g.height).foldl
        (fun bs p => bs.set (Coordinate.encode_usize ⟨p.1, p.2⟩) Block.empty)
        g.blocks := rfl
  refine ⟨rfl, rfl, by rw [hblocks, foldl_set_length], ?_⟩
  intro n hn
  have hn32 : n < 4294967296 := by omega
  constructor
  · intro hin
    have hex : ∃ p ∈ coordList g.width g.height,
        Coordinate.encode_usize ⟨p.1, p.2⟩ = n := by
      refine ⟨((Coordinate.decode_usize n).x, (Coordinate.decode_usize n).y),
        mem_coordList.mpr hin, ?_⟩
      rw [show (⟨(Coordinate.decode_usize n).x, (Coordinate.decode_usize n).y⟩ :
        Coordinate) = Coordinate.decode_usize n from rfl]
      exact encode_decode_of_lt n hn32
    rw [hblocks, foldl_set_getD _ _ _ _ _ _ hinb, if_pos hex]
  · intro hout
    have hnex : ¬∃ p ∈ coordList g.width g.height,
        Coordinate.encode_usize ⟨p.1, p.2⟩ = n := by
      rintro ⟨⟨px, py⟩, hp, hfp⟩
      obtain ⟨hpx, hpy⟩ := mem_coordList.mp hp
      have hv : (⟨px, py⟩ : Coordinate).Valid :=
        ⟨(by omega : px < 65536), (by omega : py < 65536)⟩
      have hdec : Coordinate.decode_usize n = ⟨px, py⟩ := by
        rw [← hfp, decode_encode _ hv]
      rw [hdec] at hout
      exact hout ⟨hpx, hpy⟩
    rw [hblocks, foldl_set_getD _ _ _ _ _ _ hinb, if_neg hnex]

theorem grid_clear_spec_witness :
    ((Grid.empty 2 3).width < 65536) ∧ ((Grid.empty 2 3).height < 65536) ∧
    ((Grid.empty 2 3).blocks.length ≤ 4294967296) ∧
    (∀ x, x < (Grid.empty 2 3).width → ∀ y, y < (Grid.empty 2 3).height →
      Coordinate.encode_usize ⟨x, y⟩ < (Grid.empty 2 3).blocks.length) ∧
    (Grid.empty 2 3).clear.blocks.length = (Grid.empty 2 3).blocks.length ∧
    (Grid.empty 2 3).clear.blocks.getD 3 Block.outOfBound = Block.empty :=
  ⟨by decide, by decide, by decide, by decide,
    (grid_clear_spec (Grid.empty 2 3) (by decide) (by decide) (by decide)
      (by decide)).2.2.1,
    ((grid_clear_spec (Grid.empty 2 3) (by decide) (by decide) (by decide)
      (by decide)).2.2.2 3 (by decide)).1 ⟨by decide, by decide⟩⟩

/-! ## `FromIterator<(Coordinate, Block)> for Grid` -/

/-- The running maximum of the x components (`x_max` in the Rust fold). -/
def maxX (l : List (Coordinate × Block)) : Nat :=
  l.foldl (fun m p => Nat.max m p.1.x) 0

/-- The running maximum of the y components (`y_max` in the Rust fold). -/
def maxY (l : List (Coordinate × Block)) : Nat :=
  l.foldl (fun m p => Nat.max m p.1.y) 0

theorem buildStep_xMax (st : BuildSt) (p : Coordinate × Block) :
    (buildStep st p).xMax = Nat.max st.xMax p.1.x := rfl

theorem buildStep_yMax (st : BuildSt) (p : Coordinate × Block) :
    (buildStep st p).yMax = Nat.max st.yMax p.1.y := rfl

theorem buildStep_blocks (st : BuildSt) (p : Coordinate × Block) :
    (buildStep st p).blocks =
      (growTo st.blocks
        (Coordinate.encode_usize ⟨Nat.max st.xMax p.1.x, Nat.max st.yMax p.1.y⟩)).set
        p.1.encode_usize p.2 := rfl

theorem growTo_length (bs : List Block) (idx : Nat) (h : bs.length ≤ idx + 1) :
    (growTo bs idx).length = idx + 1 := by
  simp [growTo]
  omega

theorem growTo_getD (bs : List Block) (idx n : Nat) (d : Block)
    (h : n < bs.length) : (growTo bs idx).getD n d = bs.getD n d := by
  unfold growTo
  rw [List.getD_eq_getElem?_getD, List.getD_eq_getElem?_getD,
    List.getElem?_append_left h]

theorem growTo_mem (bs : List Block) (idx : Nat) (b : Block)
    (h : b ∈ growTo bs idx) : b ∈ bs ∨ b = Block.empty := by
  unfold growTo at h
  rcases List.mem_append.mp h with h' | h'
  · exact Or.inl h'
  · exact Or.inr (List.eq_of_mem_replicate h')

theorem fold_buildStep_xMax (l : List (Coordinate × Block)) :
    ∀ st : BuildSt, (l.foldl buildStep st).xMax =
      l.foldl (fun m p => Nat.max m p.1.x) st.xMax := by
  induction l with
  | nil => intro st; rfl
  | cons p l ih =>
    intro st
    simp only [List.foldl_cons]
    rw [ih, buildStep_xMax]

theorem fold_buildStep_yMax (l : List (Coordinate × Block)) :
    ∀ st : BuildSt, (l.foldl buildStep st).yMax =
      l.foldl (fun m p => Nat.max m p.1.y) st.yMax := by
  induction l with
  | nil => intro st; rfl
  | cons p l ih =>
    intro st
    simp only [List.foldl_cons]
    rw [ih, buildStep_yMax]

theorem foldl_max_lt (bound : Nat) (f : Coordinate × Block → Nat)
    (l : List (Coordinate × Block)) :
    ∀ m : Nat, m < bound → (∀ p ∈ l, f p < bound) →
      l.foldl (fun m p => Nat.max m (f p)) m < bound := by
  induction l with
  | nil => intro m hm _; exact hm
  | cons p l ih =>
    intro m hm hl
    simp only [List.foldl_cons]
    exact ih (Nat.max m (f p))
      (Nat.max_lt.mpr ⟨hm, hl p (List.mem_cons_self p l)⟩)
      fun q hq => hl q (List.mem_cons_of_mem _ hq)

theorem start_le_foldl_max (f : Coordinate × Block → Nat)
    (l : List (Coordinate × Block)) :
    ∀ m : Nat, m ≤ l.foldl (fun m p => Nat.max m (f p)) m := by
  induction l with
  | nil => intro m; exact Nat.le_refl m
  | cons q l ih =>
    intro m
    simp only [List.foldl_cons]
    exact Nat.le_trans (Nat.le_max_left _ _) (ih _)

theorem le_foldl_max (f : Coordinate × Block → Nat)
    (l : List (Coordinate × Block)) :
    ∀ m : Nat, ∀ p ∈ l, f p ≤ l.foldl (fun m p => Nat.max m (f p)) m := by
  induction l with
  | nil => intro m p hp; cases hp
  | cons q l ih =>
    intro m p hp
    simp only [List.foldl_cons]
    rcases List.mem_cons.mp hp with rfl | hp'
    · calc f p ≤ Nat.max m (f p) := Nat.le_max_right _ _
        _ ≤ l.foldl (fun m p => Nat.max m (f p)) (Nat.max m (f p)) :=
          start_le_foldl_max ..
    · exact ih _ p hp'

/-- The structural invariant of the `FromIterator` fold: u16 maxima and a
vector of length exactly `encode(x_max, y_max) + 1`. -/
def StInv (st : BuildSt) : Prop :=
  st.xMax < 65536 ∧ st.yMax < 65536 ∧
  st.blocks.length = Coordinate.encode_usize ⟨st.xMax, st.yMax⟩ + 1

theorem getD_set_self (bs : List Block) (i : Nat) (v d : Block)
    (h : i < bs.length) : (bs.set i v).getD i d = v := by
  rw [List.getD_eq_getElem?_getD, List.getElem?_set_self h]
  rfl

theorem getD_set_ne (bs : List Block) (i j : Nat) (v d : Block) (h : i ≠ j) :
    (bs.set i v).getD j d = bs.getD j d := by
  rw [List.getD_eq_getElem?_getD, List.getD_eq_getElem?_getD,
    List.getElem?_set_ne h]

/-- Invariant of the fold when every supplied block is `Food`: the vector
never contains `OutOfBound`, and every already-processed entry is below
the running maxima and reads back as `Food`. -/
def FoodInv (done : List (Coordinate × Block)) (st : BuildSt) : Prop :=
  (∀ b ∈ st.blocks, b ≠ Block.outOfBound) ∧
  ∀ p ∈ done, p.1.x ≤ st.xMax ∧ p.1.y ≤ st.yMax ∧
    st.blocks.getD p.1.encode_usize Block.outOfBound = Block.food

theorem fold_build (l : List (Coordinate × Block)) :
    ∀ (done : List (Coordinate × Block)) (st : BuildSt),
      StInv st → FoodInv done st →
      (∀ p ∈ l, p.1.x < 65536 ∧ p.1.y < 65536 ∧ p.2 = Block.food) →
      StInv (l.foldl buildStep st) ∧
        FoodInv (done ++ l) (l.foldl buildStep st) := by
  induction l with
  | nil =>
    intro done st h1 h2 _
    simpa using ⟨h1, h2⟩
  | cons p l ih =>
    intro done st hst hfood hl
    obtain ⟨hxM, hyM, hlen⟩ := hst
    obtain ⟨hpx, hpy, hpfood⟩ := hl p (List.mem_cons_self p l)
    have hxM'lt : Nat.max st.xMax p.1.x < 65536 := Nat.max_lt.mpr ⟨hxM, hpx⟩
    have hyM'lt : Nat.max st.yMax p.1.y < 65536 := Nat.max_lt.mpr ⟨hyM, hpy⟩
    have hidx_ge : Coordinate.encode_usize ⟨st.xMax, st.yMax⟩ ≤
        Coordinate.encode_usize ⟨Nat.max st.xMax p.1.x, Nat.max st.yMax p.1.y⟩ :=
      encode_le_of_le ⟨hxM, hyM⟩ ⟨hxM'lt, hyM'lt⟩
        (Nat.le_max_left _ _) (Nat.le_max_left _ _)
    have hglen : (growTo st.blocks
        (Coordinate.encode_usize
          ⟨Nat.max st.xMax p.1.x, Nat.max st.yMax p.1.y⟩)).length =
        Coordinate.encode_usize
          ⟨Nat.max st.xMax p.1.x, Nat.max st.yMax p.1.y⟩ + 1 :=
      growTo_length _ _ (by omega)
    have hpenc : p.1.encode_usize ≤
        Coordinate.encode_usize
          ⟨Nat.max st.xMax p.1.x, Nat.max st.yMax p.1.y⟩ :=
      encode_le_of_le ⟨hpx, hpy⟩ ⟨hxM'lt, hyM'lt⟩
        (Nat.le_max_right _ _) (Nat.le_max_right _ _)
    have hlen' : (buildStep st p).blocks.length =
        Coordinate.encode_usize
          ⟨Nat.max st.xMax p.1.x, Nat.max st.yMax p.1.y⟩ + 1 := by
      rw [buildStep_blocks, List.length_set, hglen]
    have hst' : StInv (buildStep st p) := ⟨hxM'lt, hyM'lt, hlen'⟩
    have hfood' : FoodInv (done ++ [p]) (buildStep st p) := by
      constructor
      · intro b hb
        rw [buildStep_blocks] at hb
        rcases List.mem_or_eq_of_mem_set hb with hb' | rfl
        · rcases growTo_mem _ _ _ hb' with hb'' | rfl
          · exact hfood.1 b hb''
          · exact fun hcon => Block.noConfusion hcon
        · rw [hpfood]
          exact fun hcon => Block.noConfusion hcon
      · intro q hq
        rcases List.mem_append.mp hq with hq' | hq'
        · obtain ⟨hqx, hqy, hqfood⟩ := hfood.2 q hq'
          have hqvalid : q.1.Valid := ⟨by omega, by omega⟩
          have hqenc : q.1.encode_usize ≤ Coordinate.encode_usize ⟨st.xMax, st.yMax⟩ :=
            encode_le_of_le hqvalid ⟨hxM, hyM⟩ hqx hqy
          refine ⟨le_trans hqx (Nat.le_max_left _ _),
            le_trans hqy (Nat.le_max_left _ _), ?_⟩
          rw [buildStep_blocks]
          by_cases heq : p.1.encode_usize = q.1.encode_usize
          · rw [← heq, getD_set_self _ _ _ _ (by omega), hpfood]
          · rw [getD_set_ne _ _ _ _ _ heq, growTo_getD _ _ _ _ (by omega), hqfood]
        · have hq'' : q = p := by
            cases List.mem_singleton.mp hq'
            rfl
          subst hq''
          refine ⟨Nat.le_max_right _ _, Nat.le_max_right _ _, ?_⟩
          rw [buildStep_blocks, getD_set_self _ _ _ _ (by omega), hpfood]
    have htail : ∀ p ∈ l, p.1.x < 65536 ∧ p.1.y < 65536 ∧ p.2 = Block.food :=
      fun q hq => hl q (List.mem_cons_of_mem _ hq)
    have hres := ih (done ++ [p]) (buildStep st p) hst' hfood' htail
    refine ⟨hres.1, ?_⟩
    have heq : done ++ p :: l = (done ++ [p]) ++ l := by simp
    rw [heq]
    exact hres.2

theorem fold_stInv (l : List (Coordinate × Block)) :
    ∀ st : BuildSt, StInv st →
      (∀ p ∈ l, p.1.x < 65536 ∧ p.1.y < 65536) →
      StInv (l.foldl buildStep st) := by
  induction l with
  | nil => intro st h _; exact h
  | cons p l ih =>
    intro st hst hl
    obtain ⟨hxM, hyM, hlen⟩ := hst
    obtain ⟨hpx, hpy⟩ := hl p (List.mem_cons_self p l)
    have hxM'lt : Nat.max st.xMax p.1.x < 65536 := Nat.max_lt.mpr ⟨hxM, hpx⟩
    have hyM'lt : Nat.max st.yMax p.1.y < 65536 := Nat.max_lt.mpr ⟨hyM, hpy⟩
    have hidx_ge : Coordinate.encode_usize ⟨st.xMax, st.yMax⟩ ≤
        Coordinate.encode_usize ⟨Nat.max st.xMax p.1.x, Nat.max st.yMax p.1.y⟩ :=
      encode_le_of_le ⟨hxM, hyM⟩ ⟨hxM'lt, hyM'lt⟩
        (Nat.le_max_left _ _) (Nat.le_max_left _ _)
    have hlen' : (buildStep st p).blocks.length =
        Coordinate.encode_usize
          ⟨Nat.max st.xMax p.1.x, Nat.max st.yMax p.1.y⟩ + 1 := by
      rw [buildStep_blocks, List.length_set, growTo_length _ _ (by omega)]
    exact ih (buildStep st p) ⟨hxM'lt, hyM'lt, hlen'⟩
      fun q hq => hl q (List.mem_cons_of_mem _ hq)

theorem stInv_init : StInv ⟨[Block.empty], 0, 0⟩ :=
  ⟨by decide, by decide, by decide⟩

theorem foodInv_init : FoodInv [] ⟨[Block.empty], 0, 0⟩ := by
  constructor
  · intro b hb
    rcases List.mem_singleton.mp hb with rfl
    exact fun hcon => Block.noConfusion hcon
  · intro p hp
    cases hp

theorem gridFromList_width (l : List (Coordinate × Block)) :
    (gridFromList l).width =
      ((l.foldl buildStep ⟨[Block.empty], 0, 0⟩).xMax + 1) % 65536 := rfl

theorem gridFromList_height (l : List (Coordinate × Block)) :
    (gridFromList l).height =
      ((l.foldl buildStep ⟨[Block.empty], 0, 0⟩).yMax + 1) % 65536 := rfl

theorem gridFromList_blocks (l : List (Coordinate × Block)) :
    (gridFromList l).blocks =
      (l.foldl buildStep ⟨[Block.empty], 0, 0⟩).blocks.mapIdx fun i b =>
        if (l.foldl buildStep ⟨[Block.empty], 0, 0⟩).xMax <
              (Coordinate.decode_usize i).x ∨
            (l.foldl buildStep ⟨[Block.empty], 0, 0⟩).yMax <
              (Coordinate.decode_usize i).y then
          Block.outOfBound
        else b := rfl

theorem gridFromList_length (l : List (Coordinate × Block)) :
    (gridFromList l).blocks.length =
      (l.foldl buildStep ⟨[Block.empty], 0, 0⟩).blocks.length := by
  rw [gridFromList_blocks]
  simp

/-- C10: on every grid produced by `Grid::empty` or by collecting a list
of (coordinate, block) pairs, the Morton index of every coordinate inside
the logical rectangle is strictly below the length of the dense storage,
so in-rectangle indexed reads and writes never reach past the backing
vector. -/
theorem inrect_encode_lt_length :
    (∀ w h : Nat, w < 65536 → h < 65536 → ∀ c : Coordinate,
      c.x < (Grid.empty w h).width → c.y < (Grid.empty w h).height →
      c.encode_usize < (Grid.empty w h).blocks.length) ∧
    (∀ l : List (Coordinate × Block),
      (∀ p ∈ l, p.1.x < 65536 ∧ p.1.y < 65536) → ∀ c : Coordinate,
      c.x < (gridFromList l).width → c.y < (gridFromList l).height →
      c.encode_usize < (gridFromList l).blocks.length) := by
  constructor
  · intro w h hw hh c hcx hcy
    have hw1 : Nat.max 1 w < 65536 := Nat.max_lt.mpr ⟨by omega, hw⟩
    have hh1 : Nat.max 1 h < 65536 := Nat.max_lt.mpr ⟨by omega, hh⟩
    have hcx' : c.x < Nat.max 1 w := hcx
    have hcy' : c.y < Nat.max 1 h := hcy
    have hlen : (Grid.empty w h).blocks.length =
        Coordinate.encode_usize ⟨Nat.max 1 w - 1, Nat.max 1 h - 1⟩ + 1 := by
      show ((coordList (Nat.max 1 w) (Nat.max 1 h)).foldl
        (fun bs p => bs.set (Coordinate.encode_usize ⟨p.1, p.2⟩) Block.empty)
        (List.replicate
          (Coordinate.encode_usize ⟨Nat.max 1 w - 1, Nat.max 1 h - 1⟩ + 1)
          Block.outOfBound)).length = _
      rw [foldl_set_length, List.length_replicate]
    have hle : c.encode_usize ≤
        Coordinate.encode_usize ⟨Nat.max 1 w - 1, Nat.max 1 h - 1⟩ :=
      encode_le_of_le ⟨by omega, by omega⟩
        ⟨(by omega : Nat.max 1 w - 1 < 65536), (by omega : Nat.max 1 h - 1 < 65536)⟩
        (by omega : c.x ≤ Nat.max 1 w - 1) (by omega : c.y ≤ Nat.max 1 h - 1)
    omega
  · intro l hval c hcx hcy
    obtain ⟨hxM, hyM, hlen⟩ := fold_stInv l ⟨[Block.empty], 0, 0⟩ stInv_init
      fun p hp => ⟨(hval p hp).1, (hval p hp).2⟩
    rw [gridFromList_width] at hcx
    rw [gridFromList_height] at hcy
    rw [gridFromList_length, hlen]
    rcases Nat.lt_or_ge ((l.foldl buildStep ⟨[Block.empty], 0, 0⟩).xMax + 1)
        65536 with hov | hov
    · rw [Nat.mod_eq_of_lt hov] at hcx
      rcases Nat.lt_or_ge ((l.foldl buildStep ⟨[Block.empty], 0, 0⟩).yMax + 1)
          65536 with hov' | hov'
      · rw [Nat.mod_eq_of_lt hov'] at hcy
        have hle : c.encode_usize ≤ Coordinate.encode_usize
            ⟨(l.foldl buildStep ⟨[Block.empty], 0, 0⟩).xMax,
             (l.foldl buildStep ⟨[Block.empty], 0, 0⟩).yMax⟩ :=
          encode_le_of_le ⟨by omega, by omega⟩ ⟨hxM, hyM⟩
            (by omega : c.x ≤ (l.foldl buildStep ⟨[Block.empty], 0, 0⟩).xMax)
            (by omega : c.y ≤ (l.foldl buildStep ⟨[Block.empty], 0, 0⟩).yMax)
        omega
      · have : (l.foldl buildStep ⟨[Block.empty], 0, 0⟩).yMax + 1 = 65536 := by
          omega
        rw [this] at hcy
        simp at hcy
    · have : (l.foldl buildStep ⟨[Block.empty], 0, 0⟩).xMax + 1 = 65536 := by
        omega
      rw [this] at hcx
      simp at hcx

theorem inrect_encode_lt_length_witness :
    (3 < 65536) ∧ (2 < 65536) ∧ (2 < (Grid.empty 3 2).width) ∧
    (1 < (Grid.empty 3 2).height) ∧
    Coordinate.encode_usize ⟨2, 1⟩ < (Grid.empty 3 2).blocks.length :=
  ⟨by decide, by decide, by decide, by decide,
    inrect_encode_lt_length.1 3 2 (by decide) (by decide) ⟨2, 1⟩
      (by decide) (by decide)⟩

theorem card_rect (xM yM : Nat) (hx : xM < 65536) (hy : yM < 65536) :
    ((Finset.range (Coordinate.encode_usize ⟨xM, yM⟩ + 1)).filter fun n =>
      (Coordinate.decode_usize n).x ≤ xM ∧ (Coordinate.decode_usize n).y ≤ yM).card
    = (xM + 1) * (yM + 1) := by
  have hmaxvalid : (⟨xM, yM⟩ : Coordinate).Valid := ⟨hx, hy⟩
  have hcard : ((Finset.range (Coordinate.encode_usize ⟨xM, yM⟩ + 1)).filter fun n =>
      (Coordinate.decode_usize n).x ≤ xM ∧ (Coordinate.decode_usize n).y ≤ yM).card
      = ((Finset.range (xM + 1)) ×ˢ (Finset.range (yM + 1))).card := by
    refine Finset.card_nbij'
      (fun n => ((Coordinate.decode_usize n).x, (Coordinate.decode_usize n).y))
      (fun p => Coordinate.encode_usize ⟨p.1, p.2⟩) ?_ ?_ ?_ ?_
    · intro n hn
      obtain ⟨-, hdx, hdy⟩ := Finset.mem_filter.mp hn
      dsimp only
      exact Finset.mem_product.mpr
        ⟨Finset.mem_range.mpr (show (Coordinate.decode_usize n).x < xM + 1 by omega),
         Finset.mem_range.mpr (show (Coordinate.decode_usize n).y < yM + 1 by omega)⟩
    · rintro ⟨px, py⟩ hp
      obtain ⟨hpx, hpy⟩ := Finset.mem_product.mp hp
      rw [Finset.mem_range] at hpx hpy
      have hpx' : px < xM + 1 := hpx
      have hpy' : py < yM + 1 := hpy
      have hv : (⟨px, py⟩ : Coordinate).Valid :=
        ⟨(by omega : px < 65536), (by omega : py < 65536)⟩
      have hle : Coordinate.encode_usize ⟨px, py⟩ ≤ Coordinate.encode_usize ⟨xM, yM⟩ :=
        encode_le_of_le hv hmaxvalid (by omega : px ≤ xM) (by omega : py ≤ yM)
      dsimp only
      refine Finset.mem_filter.mpr ⟨Finset.mem_range.mpr (by omega), ?_⟩
      rw [decode_encode _ hv]
      exact ⟨(by omega : px ≤ xM), (by omega : py ≤ yM)⟩
    · intro n hn
      have hn32 : n < 4294967296 := by
        have h1 := Finset.mem_range.mp (Finset.mem_filter.mp hn).1
        have h2 : Coordinate.encode_usize ⟨xM, yM⟩ + 1 ≤ 4294967296 :=
          encode_usize_lt _ hmaxvalid
        omega
      dsimp only
      exact encode_decode_of_lt n hn32
    · rintro ⟨px, py⟩ hp
      obtain ⟨hpx, hpy⟩ := Finset.mem_product.mp hp
      rw [Finset.mem_range] at hpx hpy
      have hpx' : px < xM + 1 := hpx
      have hpy' : py < yM + 1 := hpy
      have hv : (⟨px, py⟩ : Coordinate).Valid :=
        ⟨(by omega : px < 65536), (by omega : py < 65536)⟩
      dsimp only
      rw [decode_encode _ hv]
  rw [hcard, Finset.card_product, Finset.card_range, Finset.card_range]

theorem countP_range_eq_card (n : Nat) (p : Nat → Bool) :
    (List.range n).countP p = ((Finset.range n).filter fun k => p k = true).card := by
  induction n with
  | zero => simp
  | succ n ih =>
    rw [List.range_succ, List.countP_append, ih, Finset.range_succ,
      Finset.filter_insert]
    by_cases hpn : p n = true
    · rw [if_pos hpn,
        Finset.card_insert_of_not_mem (fun hmem => by
          have := (Finset.mem_filter.mp hmem).1
          exact absurd this (Finset.not_mem_range_self))]
      simp [hpn]
    · rw [if_neg hpn]
      simp [hpn]

theorem self_eq_map_range_getD (bs : List Block) (d : Block) :
    bs = (List.range bs.length).map fun n => bs.getD n d := by
  apply List.ext_getElem
  · simp
  · intro n h1 h2
    simp [List.getD_eq_getElem?_getD, List.getElem?_eq_getElem h1]

theorem countP_eq_range (bs : List Block) (p : Block → Bool) (d : Block) :
    bs.countP p = (List.range bs.length).countP fun n => p (bs.getD n d) := by
  conv_lhs => rw [self_eq_map_range_getD bs d]
  rw [List.countP_map]
  rfl

theorem mapIdx_getD (bs : List Block) (f : Nat → Block → Block) (n : Nat)
    (d : Block) (h : n < bs.length) :
    (bs.mapIdx f).getD n d = f n (bs.getD n d) := by
  rw [List.getD_eq_getElem _ _ (by simpa using h), List.getD_eq_getElem _ _ h,
    List.getElem_mapIdx]

/-- C5 (amended): building a grid from a finite sequence of
(coordinate, block) pairs whose coordinate components stay below 65535 (so
that the u16 computation `max + 1` of an inferred dimension cannot
overflow) infers width and height as one plus the maximum x and y over all
supplied entries; when additionally every supplied block is `Food`, every
supplied coordinate reads back as `Food` and the number of non-`OutOfBound`
slots in the dense storage equals width × height. -/
theorem grid_from_list_spec (l : List (Coordinate × Block))
    (hval : ∀ p ∈ l, p.1.x < 65535 ∧ p.1.y < 65535) :
    (gridFromList l).width = maxX l + 1 ∧
    (gridFromList l).height = maxY l + 1 ∧
    ((∀ p ∈ l, p.2 = Block.food) →
      (∀ p ∈ l, (gridFromList l).get p.1 = some Block.food) ∧
      countNonOOB (gridFromList l).blocks =
        (gridFromList l).width * (gridFromList l).height) := by
  have hxMval : (l.foldl buildStep ⟨[Block.empty], 0, 0⟩).xMax = maxX l :=
    fold_buildStep_xMax l ⟨[Block.empty], 0, 0⟩
  have hyMval : (l.foldl buildStep ⟨[Block.empty], 0, 0⟩).yMax = maxY l :=
    fold_buildStep_yMax l ⟨[Block.empty], 0, 0⟩
  have hxMlt : maxX l < 65535 :=
    foldl_max_lt 65535 (fun p => p.1.x) l 0 (by omega) fun p hp => (hval p hp).1
  have hyMlt : maxY l < 65535 :=
    foldl_max_lt 65535 (fun p => p.1.y) l 0 (by omega) fun p hp => (hval p hp).2
  have hwidth : (gridFromList l).width = maxX l + 1 := by
    rw [gridFromList_width, hxMval, Nat.mod_eq_of_lt (by omega)]
  have hheight : (gridFromList l).height = maxY l + 1 := by
    rw [gridFromList_height, hyMval, Nat.mod_eq_of_lt (by omega)]
  refine ⟨hwidth, hheight, fun hfood => ?_⟩
  have hval16 : ∀ p ∈ l, p.1.x < 65536 ∧ p.1.y < 65536 ∧ p.2 = Block.food :=
    fun p hp => ⟨by have := (hval p hp).1; omega,
      by have := (hval p hp).2; omega, hfood p hp⟩
  obtain ⟨hstInv, hfoodInv⟩ :=
    fold_build l [] ⟨[Block.empty], 0, 0⟩ stInv_init foodInv_init hval16
  rw [List.nil_append] at hfoodInv
  obtain ⟨hxM16, hyM16, hlen⟩ := hstInv
  rw [hxMval] at hxM16
  rw [hyMval] at hyM16
  rw [hxMval, hyMval] at hlen
  refine ⟨?_, ?_⟩
  · -- every supplied coordinate reads back as Food
    intro p hp
    obtain ⟨hpx, hpy, hpfood⟩ := hfoodInv.2 p hp
    rw [hxMval] at hpx
    rw [hyMval] at hpy
    have hpvalid : p.1.Valid := ⟨by omega, by omega⟩
    have hpenc : p.1.encode_usize ≤ Coordinate.encode_usize ⟨maxX l, maxY l⟩ :=
      encode_le_of_le hpvalid ⟨hxM16, hyM16⟩
        (by omega : p.1.x ≤ maxX l) (by omega : p.1.y ≤ maxY l)
    have hpencfold : p.1.encode_usize <
        (l.foldl buildStep ⟨[Block.empty], 0, 0⟩).blocks.length := by
      omega
    have hpenclt : p.1.encode_usize < (gridFromList l).blocks.length := by
      rw [gridFromList_length]
      omega
    have hcond : p.1.x < (gridFromList l).width ∧ p.1.y < (gridFromList l).height := by
      rw [hwidth, hheight]
      omega
    unfold Grid.get
    rw [if_pos hcond, List.getElem?_eq_getElem hpenclt]
    have hgetD : (gridFromList l).blocks.getD p.1.encode_usize Block.outOfBound =
        (fun i b =>
          if (l.foldl buildStep ⟨[Block.empty], 0, 0⟩).xMax <
                (Coordinate.decode_usize i).x ∨
              (l.foldl buildStep ⟨[Block.empty], 0, 0⟩).yMax <
                (Coordinate.decode_usize i).y then
            Block.outOfBound
          else b) p.1.encode_usize
          ((l.foldl buildStep ⟨[Block.empty], 0, 0⟩).blocks.getD p.1.encode_usize
            Block.outOfBound) := by
      rw [gridFromList_blocks]
      exact mapIdx_getD _ _ _ _ hpencfold
    rw [hpfood] at hgetD
    dsimp only at hgetD
    rw [decode_encode _ hpvalid, hxMval, hyMval, if_neg (by omega)] at hgetD
    rw [List.getD_eq_getElem _ _ hpenclt] at hgetD
    rw [hgetD]
  · -- the non-OutOfBound count is width × height
    unfold countNonOOB
    rw [countP_eq_range _ _ Block.outOfBound]
    have hmlenval : (gridFromList l).blocks.length =
        Coordinate.encode_usize ⟨maxX l, maxY l⟩ + 1 := by
      rw [gridFromList_length]
      omega
    rw [hmlenval, countP_range_eq_card]
    have hcongr : ∀ n ∈ Finset.range (Coordinate.encode_usize ⟨maxX l, maxY l⟩ + 1),
        ((decide ¬(gridFromList l).blocks.getD n Block.outOfBound = Block.outOfBound) =
          true) ↔
        ((Coordinate.decode_usize n).x ≤ maxX l ∧
         (Coordinate.decode_usize n).y ≤ maxY l) := by
      intro n hn
      have hnlt : n < (l.foldl buildStep ⟨[Block.empty], 0, 0⟩).blocks.length := by
        have := Finset.mem_range.mp hn
        omega
      have hgetD : (gridFromList l).blocks.getD n Block.outOfBound =
          (fun i b =>
            if (l.foldl buildStep ⟨[Block.empty], 0, 0⟩).xMax <
                  (Coordinate.decode_usize i).x ∨
                (l.foldl buildStep ⟨[Block.empty], 0, 0⟩).yMax <
                  (Coordinate.decode_usize i).y then
              Block.outOfBound
            else b) n
            ((l.foldl buildStep ⟨[Block.empty], 0, 0⟩).blocks.getD n
              Block.outOfBound) := by
        rw [gridFromList_blocks]
        exact mapIdx_getD _ _ _ _ hnlt
      rw [hgetD]
      dsimp only
      rw [hxMval, hyMval]
      by_cases hrect : (Coordinate.decode_usize n).x ≤ maxX l ∧
          (Coordinate.decode_usize n).y ≤ maxY l
      · rw [if_neg (by omega)]
        have hmem : (l.foldl buildStep ⟨[Block.empty], 0, 0⟩).blocks.getD n
            Block.outOfBound ∈ (l.foldl buildStep ⟨[Block.empty], 0, 0⟩).blocks := by
          rw [List.getD_eq_getElem _ _ hnlt]
          exact List.getElem_mem hnlt
        have hne := hfoodInv.1 _ hmem
        rw [List.getD_eq_getElem?_getD] at hne
        simp [hne, hrect]
      · rw [if_pos (by omega)]
        simp [hrect]
    rw [Finset.filter_congr hcongr,
      card_rect (maxX l) (maxY l) (by omega) (by omega), hwidth, hheight]

/-- C5 (counterexample): with the supplied entry ((65535, 0), Food) the
claimed inferred width, one plus the maximum x, would be 65536, which the
u16 width field cannot hold: the code's `x_max + 1` wraps to 0 (release
profile), so the resulting grid has width 0 and the supplied coordinate
reads back as `OutOfBound`, not `Food`. -/
theorem grid_from_list_width_overflow :
    (gridFromList [(⟨65535, 0⟩, Block.food)]).width = 0 ∧
    (gridFromList [(⟨65535, 0⟩, Block.food)]).width ≠ 65535 + 1 ∧
    (gridFromList [(⟨65535, 0⟩, Block.food)]).get ⟨65535, 0⟩ =
      some Block.outOfBound := by
  refine ⟨by decide, by decide, by decide⟩

theorem grid_from_list_spec_witness :
    (∀ p ∈ [((⟨1, 0⟩ : Coordinate), Block.food), (⟨0, 1⟩, Block.food)],
      p.1.x < 65535 ∧ p.1.y < 65535) ∧
    (∀ p ∈ [((⟨1, 0⟩ : Coordinate), Block.food), (⟨0, 1⟩, Block.food)],
      p.2 = Block.food) ∧
    (gridFromList [((⟨1, 0⟩ : Coordinate), Block.food), (⟨0, 1⟩, Block.food)]).width =
      maxX [((⟨1, 0⟩ : Coordinate), Block.food), (⟨0, 1⟩, Block.food)] + 1 ∧
    countNonOOB
        (gridFromList [((⟨1, 0⟩ : Coordinate), Block.food), (⟨0, 1⟩, Block.food)]).blocks =
      (gridFromList [((⟨1, 0⟩ : Coordinate), Block.food), (⟨0, 1⟩, Block.food)]).width *
        (gridFromList [((⟨1, 0⟩ : Coordinate), Block.food), (⟨0, 1⟩, Block.food)]).height :=
  ⟨by decide, by decide,
    (grid_from_list_spec _ (by decide)).1,
    ((grid_from_list_spec _ (by decide)).2.2 (by decide)).2⟩

/-! ## Simulation model and game driver (`src/system/traits.rs`) -/

/-- `GameOver` from `src/system/traits.rs`. -/
structure GameOver where

/-- A `Model` implementation (`src/system/traits.rs`), embedded as a pure
record over an explicit model state `σ`: `initialize` yields the initial
update sequence, `step` consumes the latest command and yields either the
next update or the `GameOver` termination signal, `tear_down` releases
resources. -/
structure SimModel (C U σ : Type) where
  init : σ → σ × List U
  step : σ → Option C → σ × Except GameOver U
  tearDown : σ → σ

/-- The `Empty` model of `src/system/traits.rs`: `initialize` produces no
updates, `step` always answers `Err(GameOver)`, `tear_down` does
nothing. -/
def EmptyModel (C U : Type) : SimModel C U Unit where
  init s := (s, [])
  step s _ := (s, Except.error ⟨⟩)
  tearDown s := s

/-- Observable events of one driver run: an update handed to a renderer
(`R::create` + driving it to completion), or a `tear_down` call. -/
inductive Ev (U : Type) where
  | render (u : U)
  | tearDown
  deriving DecidableEq

/-- The steady-state inner loop of the generator in `Game::create`: at
tick `k` read the current command cell value `cmds k`, step the model,
render the update or break on the termination signal.  `fuel` bounds the
number of steps modelled; `none` means the loop did not exit within
`fuel` steps.  The `GameOver` value is consumed by the `break` and never
escapes. -/
def steadyLoop (m : SimModel C U σ) (cmds : Nat → Option C) :
    Nat → Nat → σ → Option (σ × List U × Nat)
  | 0, _, _ => none
  | fuel + 1, k, s =>
    match m.step s (cmds k) with
    | (s', Except.ok u) =>
      (steadyLoop m cmds fuel (k + 1) s').map fun r => (r.1, u :: r.2.1, r.2.2)
    | (s', Except.error _) => some (s', [], k + 1)

/-- One iteration of the outer `loop` of `Game::create`: run
`initialize` and render each initial update, run the steady loop, then
call `tear_down` exactly once.  Returns the post-cycle model state, the
trace of observable events, and the next tick index. -/
def runCycle (m : SimModel C U σ) (cmds : Nat → Option C) (fuel k : Nat)
    (s : σ) : Option (σ × List (Ev U) × Nat) :=
  let (s₁, initUs) := m.init s
  match steadyLoop m cmds fuel k s₁ with
  | none => none
  | some (s₂, us, k') =>
    some (m.tearDown s₂, initUs.map Ev.render ++ us.map Ev.render ++ [Ev.tearDown], k')

/-- The outer `loop` of `Game::create`, run for `n` cycles: after each
`tear_down` the whole cycle restarts from `initialize`.  Termination
(`GameOver`) never escapes a cycle, so the concatenated trace is the only
observable behaviour. -/
def runCycles (m : SimModel C U σ) (cmds : Nat → Option C) (fuel : Nat) :
    Nat → Nat → σ → Option (σ × List (Ev U))
  | 0, _, s => some (s, [])
  | n + 1, k, s =>
    match runCycle m cmds fuel k s with
    | none => none
    | some (s', tr, k') =>
      (runCycles m cmds fuel n k' s').map fun r => (r.1, tr ++ r.2)

/-- C9: with the `Empty` model (no initial updates, `step` always signals
termination) every cycle of the driver renders zero updates — no renderer
is ever constructed — and invokes `tear_down` exactly once, after which
the cycle restarts from initialization with the model state unchanged;
over any number `n` of cycles the driver produces exactly `n` `tear_down`
events, never propagating the termination signal out (the run always
completes with `some`). -/
theorem empty_model_driver_trace (C U : Type) (cmds : Nat → Option C)
    (fuel : Nat) (hfuel : 0 < fuel) :
    ∀ n k : Nat, runCycles (EmptyModel C U) cmds fuel n k () =
      some ((), List.replicate n (Ev.tearDown (U := U))) := by
  have hcycle : ∀ k : Nat, runCycle (EmptyModel C U) cmds fuel k () =
      some ((), [Ev.tearDown], k + 1) := by
    intro k
    obtain ⟨fuel', rfl⟩ : ∃ fuel', fuel = fuel' + 1 :=
      ⟨fuel - 1, by omega⟩
    rfl
  intro n
  induction n with
  | zero => intro k; rfl
  | succ n ih =>
    intro k
    rw [runCycles, hcycle k]
    dsimp only
    rw [ih (k + 1)]
    simp [List.replicate_succ]

theorem empty_model_driver_trace_witness :
    (0 < 1) ∧
    runCycles (EmptyModel Nat Nat) (fun _ => none) 1 3 0 () =
      some ((), List.replicate 3 (Ev.tearDown (U := Nat))) :=
  ⟨by decide, empty_model_driver_trace Nat Nat (fun _ => none) 1 (by decide) 3 0⟩
